import Mathlib

/-
Verification of the diff/patch parsing engine (src/plugins/diffeditor/diffutils.cpp)
and two Android helper functions (src/plugins/android/androidutils.cpp).

The patch text is modelled as the list of its lines (the source splits on the
newline character early on).  The asynchronous promise (QPromise) is modelled as
an explicit run: each call returns the list of promise events it emitted
(progress-range sets, progress values, cancellation polls, result additions),
the advanced poll counter, and the optional result.  Cancellation is modelled by
an optional poll index from which on `isCanceled()` reports true; this captures
the monotone nature of QFuture cancellation (once cancelled, always cancelled).
-/

set_option autoImplicit false

namespace DiffEditor

/-! ## String helpers (modelling the QString operations used by the source) -/

/-- Character-list based startsWith, modelling QString::startsWith. -/
def strStartsWith (s pat : String) : Bool :=
  pat.data.isPrefixOf s.data

/-- Character-list based endsWith, modelling QString::endsWith. -/
def strEndsWith (s pat : String) : Bool :=
  pat.data.isSuffixOf s.data

/-- Drop the first `n` characters of a string. -/
def strDropCh (s : String) (n : Nat) : String :=
  String.mk (s.data.drop n)

/-- Take characters up to (excluding) the first tab, modelling the
"filename up to tab" capture of the source's file-header regular expressions. -/
def takeUntilTab (s : String) : String :=
  String.mk (s.data.takeWhile (fun c => c != '\t'))

/-- Split a character list at newline characters. -/
def splitLinesGo : List Char → List Char → List String
  | acc, [] => [String.mk acc.reverse]
  | acc, c :: cs =>
    if c = '\n' then String.mk acc.reverse :: splitLinesGo [] cs
    else splitLinesGo (c :: acc) cs

/-- Split a string into its lines, modelling `patch.split(newLine)`. -/
def splitLines (s : String) : List String :=
  splitLinesGo [] s.data

/-- The lines of a patch text; a patch ending in a newline contributes no final
empty line (the source indexes up to the final newline). -/
def patchLines (s : String) : List String :=
  let ls := splitLines s
  if ls.getLast? = some "" then ls.dropLast else ls

/-- Is this character a decimal digit? -/
def isDigitCh (c : Char) : Bool :=
  decide (48 ≤ c.toNat) && decide (c.toNat ≤ 57)

/-- Decimal value of a digit character list. -/
def charsToNat (cs : List Char) : Nat :=
  cs.foldl (fun n c => 10 * n + (c.toNat - 48)) 0

/-- Parse a nonempty run of digits; returns the value and the remaining input. -/
def parseNatCh (cs : List Char) : Option (Nat × List Char) :=
  let ds := cs.takeWhile isDigitCh
  if ds.isEmpty then none else some (charsToNat ds, cs.dropWhile isDigitCh)

/-- Strip an expected literal from the front of the input, or fail. -/
def stripPat (pat : String) (cs : List Char) : Option (List Char) :=
  if pat.data.isPrefixOf cs then some (cs.drop pat.data.length) else none

/-! ## Data model -/

/-- Role of one diff line inside a hunk: context, added or removed. -/
inductive LineRole
  | context
  | added
  | removed
deriving DecidableEq, Repr

/-- One diff line: its role and its text without the leading marker character. -/
structure DiffLine where
  role : LineRole
  text : String
deriving DecidableEq, Repr

/-- One hunk: the declared starting line and length for both sides from its
`@@ -a,b +c,d @@` marker, plus its ordered lines. -/
structure Hunk where
  beforeStart : Nat
  beforeCount : Nat
  afterStart : Nat
  afterCount : Nat
  lines : List DiffLine
deriving DecidableEq, Repr

/-- Per-file parse result: source path, destination path, binary flag and the
ordered hunks. -/
structure FileData where
  source : String
  destination : String
  binaryFiles : Bool
  hunks : List Hunk
deriving DecidableEq, Repr

/-! ## Hunk parsing -/

/-- The four numbers of an `@@ -a,b +c,d @@` hunk marker. -/
structure HunkHeader where
  a : Nat
  b : Nat
  c : Nat
  d : Nat
deriving DecidableEq, Repr

/-- Parse an optional `,count`; the count defaults to 1 when omitted. -/
def parseCountCh (cs : List Char) : Option (Nat × List Char) :=
  match cs with
  | ',' :: rest => parseNatCh rest
  | _ => some (1, cs)

/-- Modelled from the spec: the `@@ -start,count +start,count @@` marker scan of
the hunk parser (the body of `readChunks` is not part of the excerpt).  Counts
default to 1 when omitted; arbitrary text may follow the closing `@@`. -/
def parseHunkHeader (l : String) : Option HunkHeader := do
  let cs1 ← stripPat "@@ -" l.data
  let (a, cs2) ← parseNatCh cs1
  let (b, cs3) ← parseCountCh cs2
  let cs4 ← stripPat " +" cs3
  let (c, cs5) ← parseNatCh cs4
  let (d, cs6) ← parseCountCh cs5
  let _ ← stripPat " @@" cs6
  pure ⟨a, b, c, d⟩

/-- Modelled from the spec: classification of one hunk body line by its leading
character; space → context, `-` → removed, `+` → added, anything else (such as
"\ No newline at end of file") is trailing metadata and yields no Line. -/
def classifyLine (l : String) : Option DiffLine :=
  match l.data with
  | ' ' :: rest => some ⟨LineRole.context, String.mk rest⟩
  | '-' :: rest => some ⟨LineRole.removed, String.mk rest⟩
  | '+' :: rest => some ⟨LineRole.added, String.mk rest⟩
  | _ => none

/-- The Lines of a hunk body, in order. -/
def classifyLines (ls : List String) : List DiffLine :=
  ls.filterMap classifyLine

/-- Number of lines of a given role in a hunk body. -/
def countRole (r : LineRole) (ls : List DiffLine) : Nat :=
  (ls.filter (fun dl => dl.role == r)).length

/-- The hunk line-count invariant: context+removed lines match the declared
before length and context+added lines match the declared after length. -/
def hunkOk (h : Hunk) : Bool :=
  (countRole LineRole.context h.lines + countRole LineRole.removed h.lines == h.beforeCount)
  && (countRole LineRole.context h.lines + countRole LineRole.added h.lines == h.afterCount)

/-- Modelled from the spec: build one Hunk from its marker numbers and body
lines, validating the line-count invariant; a mismatch fails the parse. -/
def buildHunk (hd : HunkHeader) (body : List String) : Option Hunk :=
  let h : Hunk := ⟨hd.a, hd.b, hd.c, hd.d, classifyLines body⟩
  if hunkOk h then some h else none

/-- Modelled from the spec: group the chunk text into hunks.  `hd` is the
current open hunk marker, `body` the accumulated (reversed) body lines; a new
`@@ ` line closes the current hunk and opens the next. -/
def splitHunksGo : HunkHeader → List String → List String → Option (List Hunk)
  | hd, body, [] =>
    match buildHunk hd body.reverse with
    | none => none
    | some h => some [h]
  | hd, body, l :: ls =>
    if strStartsWith l "@@ " then
      match parseHunkHeader l, buildHunk hd body.reverse with
      | some hd2, some h =>
        match splitHunksGo hd2 [] ls with
        | none => none
        | some hs => some (h :: hs)
      | _, _ => none
    else splitHunksGo hd (l :: body) ls

/-- Modelled from the spec: `readChunks` — parse the chunk text of one file
into its hunks.  Empty chunk text yields zero hunks; the text must otherwise
open with a well-formed `@@ ` marker; a malformed marker or a line-count
mismatch fails the whole file. -/
def readChunks : List String → Option (List Hunk)
  | [] => some []
  | l :: ls =>
    if strStartsWith l "@@ " then
      match parseHunkHeader l with
      | some hd => splitHunksGo hd [] ls
      | none => none
    else none

/-! ## File header parsing -/

/-- Parse a `--- path` or `+++ path` header line: the given marker followed by
the file name up to an optional tab. -/
def parseFileLine (pat : String) (l : String) : Option String :=
  if strStartsWith l pat then some (takeUntilTab (strDropCh l pat.data.length)) else none

/-- Modelled from the spec: `readDiffHeaderAndChunks` — parse one unified-diff
file segment: a `--- ` line, a `+++ ` line, then the chunk text. -/
def readDiffHeaderAndChunks (seg : List String) : Option FileData :=
  match seg with
  | l1 :: l2 :: rest =>
    match parseFileLine "--- " l1, parseFileLine "+++ " l2 with
    | some src, some dst =>
      match readChunks rest with
      | none => none
      | some hs => some ⟨src, dst, false, hs⟩
    | _, _ => none
  | _ => none

/-- Git metadata header lines that carry no hunk data and are skipped. -/
def isGitMetaLine (l : String) : Bool :=
  strStartsWith l "index " || strStartsWith l "old mode " || strStartsWith l "new mode "
  || strStartsWith l "new file mode " || strStartsWith l "deleted file mode "
  || strStartsWith l "similarity index " || strStartsWith l "dissimilarity index "
  || strStartsWith l "copy from " || strStartsWith l "copy to "

/-- Detection of a `Binary files X and Y differ` line. -/
def isBinaryLine (l : String) : Bool :=
  strStartsWith l "Binary files " && strEndsWith l " differ"

/-- Split a character list at the first occurrence of a pattern; fails when the
pattern does not occur. -/
def breakOnPat (pat : List Char) : List Char → Option (List Char × List Char)
  | [] => none
  | c :: cs =>
    if pat.isPrefixOf (c :: cs) then some ([], (c :: cs).drop pat.length)
    else
      match breakOnPat pat cs with
      | none => none
      | some (p, r) => some (c :: p, r)

/-- Parse a `diff --git a/X b/Y` header line into the two file names. -/
def parseGitHeaderLine (l : String) : Option (String × String) := do
  let cs ← stripPat "diff --git a/" l.data
  let (x, y) ← breakOnPat (" b/".data) cs
  pure (String.mk x, String.mk y)

/-- Modelled from the spec: the header scan of `detectFileData` after the
`diff --git` line.  Known metadata lines are skipped, rename lines update the
file names, a `Binary files ... differ` line closes a binary segment with zero
hunks, and a `--- `/`+++ ` pair closes a textual segment, returning the
remaining chunk text; anything else fails the segment. -/
def detectGo : String → String → List String → Option (FileData × List String)
  | _, _, [] => none
  | src, dst, l :: ls =>
    if isBinaryLine l then
      if ls.isEmpty then some (⟨src, dst, true, []⟩, []) else none
    else if isGitMetaLine l then detectGo src dst ls
    else if strStartsWith l "rename from " then detectGo (strDropCh l 12) dst ls
    else if strStartsWith l "rename to " then detectGo src (strDropCh l 10) ls
    else
      match parseFileLine "--- " l, ls with
      | some a, l2 :: rest =>
        match parseFileLine "+++ " l2 with
        | some b => some (⟨a, b, false, []⟩, rest)
        | none => none
      | _, _ => none

/-- Modelled from the spec: `detectFileData` — parse the git header block of
one segment into a FileData (paths, binary flag) and the remaining chunk text;
failure when the header cannot be matched to a valid file-change header. -/
def detectFileData (seg : List String) : Option (FileData × List String) :=
  match seg with
  | [] => none
  | l0 :: rest =>
    match parseGitHeaderLine l0 with
    | none => none
    | some (x, y) => detectGo x y rest

/-- Full parse of one git file segment: header detection followed by chunk
reading (binary segments carry zero hunks). -/
def gitSegmentParse (seg : List String) : Option FileData :=
  match detectFileData seg with
  | none => none
  | some (fd, rest) =>
    if fd.binaryFiles then some fd
    else
      match readChunks rest with
      | none => none
      | some hs => some ⟨fd.source, fd.destination, fd.binaryFiles, hs⟩

/-! ## Segmentation -/

/-- Append a line to the currently open segment; lines before the first
boundary belong to no segment and are dropped. -/
def pushCur (cur : Option (List String)) (l : String) : Option (List String) :=
  match cur with
  | none => none
  | some c => some (l :: c)

/-- Close the currently open segment (the accumulator is reversed). -/
def closeCur (cur : Option (List String)) : List (List String) :=
  match cur with
  | none => []
  | some c => [c.reverse]

/-- Git segmentation: a new segment starts at every line beginning with
`diff --git ` (the source collects the starting positions of git headers). -/
def gitSegmentsGo : Option (List String) → List String → List (List String)
  | cur, [] => closeCur cur
  | cur, l :: ls =>
    if strStartsWith l "diff --git " then closeCur cur ++ gitSegmentsGo (some [l]) ls
    else gitSegmentsGo (pushCur cur l) ls

/-- The git file segments of a patch, in text order. -/
def gitSegments (lines : List String) : List (List String) :=
  gitSegmentsGo none lines

/-- Does the next line start with the given pattern? -/
def nextStarts (ls : List String) (pat : String) : Bool :=
  match ls with
  | [] => false
  | l :: _ => strStartsWith l pat

/-- Modelled from the spec: unified-diff segmentation — a new segment starts at
every `--- `/`+++ ` line pair outside any open hunk.  While inside a hunk the
scanner consumes the declared before/after counts (`rb`, `ra`) so that hunk
body lines beginning with `--- ` never count as boundaries. -/
def unifiedSegmentsGo : Nat → Nat → Option (List String) → List String → List (List String)
  | _, _, cur, [] => closeCur cur
  | rb, ra, cur, l :: ls =>
    if rb + ra > 0 then
      if strStartsWith l " " then unifiedSegmentsGo (rb - 1) (ra - 1) (pushCur cur l) ls
      else if strStartsWith l "-" then unifiedSegmentsGo (rb - 1) ra (pushCur cur l) ls
      else if strStartsWith l "+" then unifiedSegmentsGo rb (ra - 1) (pushCur cur l) ls
      else unifiedSegmentsGo rb ra (pushCur cur l) ls
    else if strStartsWith l "@@ " then
      match parseHunkHeader l with
      | some hd => unifiedSegmentsGo hd.b hd.d (pushCur cur l) ls
      | none => unifiedSegmentsGo 0 0 (pushCur cur l) ls
    else if strStartsWith l "--- " && nextStarts ls "+++ " then
      closeCur cur ++ unifiedSegmentsGo 0 0 (some [l]) ls
    else unifiedSegmentsGo 0 0 (pushCur cur l) ls

/-- The unified-diff file segments of a patch, in text order. -/
def unifiedSegments (lines : List String) : List (List String) :=
  unifiedSegmentsGo 0 0 none lines

/-! ## Promise model and orchestrator

The QPromise effects are reified: a run returns the list of promise events it
emitted, the advanced poll counter and its optional result (QPromise::addResult
is called at most once per attempt, and `resultCount() == 0` is exactly
`value = none`). -/

/-- Observable promise events of one parse run. -/
inductive PEvent
  | rangeSet (lo hi : Nat)
  | progress (v : Nat)
  | polled (canceled : Bool)
  | segmentProcessed
  | resultAdded
deriving DecidableEq, Repr

/-- Cancellation model: `cf = some n` means `isCanceled()` reports true from
the `n`-th poll onwards (QFuture cancellation is monotone); `none` means the
promise is never cancelled. -/
def cancelAt (cf : Option Nat) (p : Nat) : Bool :=
  match cf with
  | none => false
  | some n => decide (n ≤ p)

/-- Outcome of one (sub)run: emitted events, advanced poll counter, value. -/
structure RunOut (α : Type) where
  events : List PEvent
  polls : Nat
  value : α
deriving Repr

/-- First loop of `readGitPatch`: for each git segment, poll cancellation, then
detect its file data; cancellation or a detection failure aborts the attempt
with no result. -/
def gitDetectLoop (cf : Option Nat) : Nat → List (List String) →
    RunOut (Option (List (FileData × List String)))
  | p, [] => ⟨[], p, some []⟩
  | p, seg :: rest =>
    if cancelAt cf p then ⟨[PEvent.polled true], p + 1, none⟩
    else
      match detectFileData seg with
      | none => ⟨[PEvent.polled false], p + 1, none⟩
      | some pr =>
        let r := gitDetectLoop cf (p + 1) rest
        ⟨PEvent.polled false :: r.events, r.polls, r.value.map (fun ps => pr :: ps)⟩

/-- Second loop of `readGitPatch`: for each detected segment, poll
cancellation, report the progress value `i` (incremented per segment), then
read its chunks (binary files carry zero hunks); cancellation or a chunk
failure aborts the attempt with no result. -/
def gitChunksLoop (cf : Option Nat) : Nat → Nat → List (FileData × List String) →
    RunOut (Option (List FileData))
  | p, _, [] => ⟨[], p, some []⟩
  | p, i, (fd, chunkText) :: rest =>
    if cancelAt cf p then ⟨[PEvent.polled true], p + 1, none⟩
    else
      match (if fd.binaryFiles then some [] else readChunks chunkText) with
      | none => ⟨[PEvent.polled false, PEvent.progress i], p + 1, none⟩
      | some hs =>
        let r := gitChunksLoop cf (p + 1) (i + 1) rest
        ⟨PEvent.polled false :: PEvent.progress i :: PEvent.segmentProcessed :: r.events,
          r.polls,
          r.value.map (fun fds => (⟨fd.source, fd.destination, fd.binaryFiles, hs⟩ : FileData) :: fds)⟩

/-- `readGitPatch`: segment at git headers, detect every segment's file data,
and if at least one segment was found, set the progress range to the segment
count and read every segment's chunks; any failure yields no result. -/
def readGitPatch (cf : Option Nat) (p : Nat) (patch : String) :
    RunOut (Option (List FileData)) :=
  let segs := gitSegments (patchLines patch)
  let d := gitDetectLoop cf p segs
  match d.value with
  | none => ⟨d.events, d.polls, none⟩
  | some patches =>
    if patches.isEmpty then ⟨d.events, d.polls, none⟩
    else
      let r := gitChunksLoop cf d.polls 0 patches
      match r.value with
      | none => ⟨d.events ++ PEvent.rangeSet 0 patches.length :: r.events, r.polls, none⟩
      | some fds =>
        ⟨d.events ++ PEvent.rangeSet 0 patches.length :: (r.events ++ [PEvent.resultAdded]),
          r.polls, some fds⟩

/-- Loop of `readDiffPatch`: for each unified segment, poll cancellation, then
parse its header and chunks; cancellation or a parse failure aborts the
attempt with no result.  No per-segment progress is reported here. -/
def diffLoop (cf : Option Nat) : Nat → List (List String) → RunOut (Option (List FileData))
  | p, [] => ⟨[], p, some []⟩
  | p, seg :: rest =>
    if cancelAt cf p then ⟨[PEvent.polled true], p + 1, none⟩
    else
      match readDiffHeaderAndChunks seg with
      | none => ⟨[PEvent.polled false], p + 1, none⟩
      | some fd =>
        let r := diffLoop cf (p + 1) rest
        ⟨PEvent.polled false :: PEvent.segmentProcessed :: r.events, r.polls,
          r.value.map (fun fds => fd :: fds)⟩

/-- `readDiffPatch`: segment at unified `--- `/`+++ ` boundaries and parse each
segment; a patch with no unified segment yields no result. -/
def readDiffPatch (cf : Option Nat) (p : Nat) (patch : String) :
    RunOut (Option (List FileData)) :=
  let segs := unifiedSegments (patchLines patch)
  if segs.isEmpty then ⟨[], p, none⟩
  else
    let r := diffLoop cf p segs
    match r.value with
    | none => ⟨r.events, r.polls, none⟩
    | some fds => ⟨r.events ++ [PEvent.resultAdded], r.polls, some fds⟩

/-- `DiffUtils::readPatchWithPromise`: set the progress range to 0..1 and the
progress value to 0, attempt the git parse, and run the unified parse only
when the git attempt produced no result. -/
def readPatchWithPromise (cf : Option Nat) (patch : String) :
    RunOut (Option (List FileData)) :=
  let g := readGitPatch cf 0 patch
  match g.value with
  | some fds => ⟨PEvent.rangeSet 0 1 :: PEvent.progress 0 :: g.events, g.polls, some fds⟩
  | none =>
    let d := readDiffPatch cf g.polls patch
    ⟨PEvent.rangeSet 0 1 :: PEvent.progress 0 :: (g.events ++ d.events), d.polls, d.value⟩

namespace DiffUtils

/-- `DiffUtils::readPatch`: drive the promise-based parse to completion with a
never-cancelled promise; no result added means an empty optional. -/
def readPatch (patch : String) : Option (List FileData) :=
  (readPatchWithPromise none patch).value

end DiffUtils

/-- The number of file segments of a patch under the format actually chosen:
git segments when any exist, unified segments otherwise. -/
def fileSegmentCount (patch : String) : Nat :=
  let g := gitSegments (patchLines patch)
  if g.isEmpty then (unifiedSegments (patchLines patch)).length else g.length

/-! ## Trace projections and scans -/

/-- The reported progress values of an event trace, in order. -/
def progressValues (es : List PEvent) : List Nat :=
  es.filterMap (fun e => match e with | PEvent.progress v => some v | _ => none)

/-- A Boolean check that a list of naturals never decreases. -/
def nonDecreasing : List Nat → Bool
  | [] => true
  | [_] => true
  | a :: b :: t => decide (a ≤ b) && nonDecreasing (b :: t)

/-- Does an event satisfy the given trigger `polled`? -/
def isPollEvent (e : PEvent) : Bool :=
  match e with
  | PEvent.polled _ => true
  | _ => false

/-- Is the event a progress report? -/
def isProgressEvent (e : PEvent) : Bool :=
  match e with
  | PEvent.progress _ => true
  | _ => false

/-- Scan requiring a triggering event between consecutive `segmentProcessed`
events (and before the first): returns the final trigger flag, or `none` when
some processed segment was not preceded by a trigger since the last one. -/
def reqScan (trig : PEvent → Bool) : Bool → List PEvent → Option Bool
  | f, [] => some f
  | f, e :: es =>
    if trig e then reqScan trig true es
    else
      match e with
      | PEvent.segmentProcessed => if f then reqScan trig false es else none
      | _ => reqScan trig f es

/-- Scan checking that no segment is processed after a poll has observed
cancellation: returns the final observed flag, or `none` on a violation. -/
def npacScan : Bool → List PEvent → Option Bool
  | saw, [] => some saw
  | saw, PEvent.polled c :: es => npacScan (saw || c) es
  | saw, PEvent.segmentProcessed :: es => if saw then none else npacScan saw es
  | saw, _ :: es => npacScan saw es

/-- Boolean check that every `segmentProcessed` event is followed (later in the
trace) by some progress report. -/
def reportAfterProcessed : List PEvent → Bool
  | [] => true
  | PEvent.segmentProcessed :: es => es.any isProgressEvent && reportAfterProcessed es
  | _ :: es => reportAfterProcessed es

/-! ## Concrete example patches used by witnesses and counterexamples -/

/-- The unified-diff example of the specification. -/
def exUnified : String :=
  "--- a/f.txt\n+++ b/f.txt\n@@ -1,1 +1,2 @@\n-old\n+new1\n+new2\n"

/-- The binary git-diff example of the specification. -/
def exGitBinary : String :=
  "diff --git a/x b/x\nBinary files a/x and b/x differ\n"

/-- A git patch whose single git segment fails file-data detection, while the
text still contains a well-formed unified `--- `/`+++ ` file. -/
def exMixed : String :=
  "diff --git a/c b/c\ngarbage\n--- a/good\n+++ b/good\n@@ -1,1 +1,1 @@\n-x\n+y\n"

/-- A unified patch with two well-formed files. -/
def exUnifiedTwo : String :=
  "--- a/a.txt\n+++ b/a.txt\n@@ -1,1 +1,1 @@\n-x\n+y\n--- a/b.txt\n+++ b/b.txt\n@@ -1,1 +1,1 @@\n-u\n+v\n"

/-- A unified patch with one well-formed file and one file whose hunk marker is
corrupted. -/
def exCorruptHunk : String :=
  "--- a/f\n+++ b/f\n@@ -1,1 +1,1 @@\n-x\n+y\n--- a/g\n+++ b/g\n@@ broken\n"

/-- The Hunk produced for the specification example `exUnified`. -/
def exUnifiedHunk : Hunk :=
  ⟨1, 1, 1, 2, [⟨LineRole.removed, "old"⟩, ⟨LineRole.added, "new1"⟩, ⟨LineRole.added, "new2"⟩]⟩

/-- The FileData produced for the specification example `exUnified`. -/
def exUnifiedFileData : FileData :=
  ⟨"a/f.txt", "b/f.txt", false, [exUnifiedHunk]⟩

/-- The two FileData entries produced for `exUnifiedTwo`, in patch order. -/
def exUnifiedTwoResult : List FileData :=
  [⟨"a/a.txt", "b/a.txt", false, [⟨1, 1, 1, 1, [⟨LineRole.removed, "x"⟩, ⟨LineRole.added, "y"⟩]⟩]⟩,
   ⟨"a/b.txt", "b/b.txt", false, [⟨1, 1, 1, 1, [⟨LineRole.removed, "u"⟩, ⟨LineRole.added, "v"⟩]⟩]⟩]

end DiffEditor

namespace Android

/-! ## androidutils.cpp: adbSelector and defaultMinimumSDK -/

/-- `adbSelector`: workaround for `????????????` serial numbers — `-d` for
buggy devices, `-s <serial>` for normal ones. -/
def adbSelector (serialNumber : String) : List String :=
  if DiffEditor.strStartsWith serialNumber "????" then ["-d"] else ["-s", serialNumber]

/-- Model of QVersionNumber restricted to the major and minor segments, which
fully determine the comparisons `>= (6,0)` and `>= (5,13)` used by
`defaultMinimumSDK`. -/
structure QVersionNumber where
  majorV : Nat
  minorV : Nat
deriving DecidableEq, Repr

/-- Lexicographic `v >= w` on version numbers, modelling QVersionNumber's
comparison on the segments used. -/
def versionGE (v w : QVersionNumber) : Bool :=
  decide (w.majorV < v.majorV) || (decide (v.majorV = w.majorV) && decide (w.minorV ≤ v.minorV))

/-- `defaultMinimumSDK`: 23 for Qt >= 6.0, 21 for Qt >= 5.13, 16 otherwise
(also for a null Qt version). -/
def defaultMinimumSDK (qtVersion : Option QVersionNumber) : Nat :=
  if (match qtVersion with | some v => versionGE v ⟨6, 0⟩ | none => false) then 23
  else if (match qtVersion with | some v => versionGE v ⟨5, 13⟩ | none => false) then 21
  else 16

end Android

namespace DiffEditor

/-! ## Helper lemmas: progress values of each phase -/

theorem progressValues_append (xs ys : List PEvent) :
    progressValues (xs ++ ys) = progressValues xs ++ progressValues ys := by
  simp [progressValues]

@[simp] theorem progressValues_nil : progressValues [] = [] := rfl

@[simp] theorem progressValues_cons_rangeSet (lo hi : Nat) (es : List PEvent) :
    progressValues (PEvent.rangeSet lo hi :: es) = progressValues es := rfl

@[simp] theorem progressValues_cons_polled (c : Bool) (es : List PEvent) :
    progressValues (PEvent.polled c :: es) = progressValues es := rfl

@[simp] theorem progressValues_cons_processed (es : List PEvent) :
    progressValues (PEvent.segmentProcessed :: es) = progressValues es := rfl

@[simp] theorem progressValues_cons_progress (v : Nat) (es : List PEvent) :
    progressValues (PEvent.progress v :: es) = v :: progressValues es := rfl

@[simp] theorem progressValues_cons_resultAdded (es : List PEvent) :
    progressValues (PEvent.resultAdded :: es) = progressValues es := rfl

theorem pV_detectLoop (cf : Option Nat) :
    ∀ (l : List (List String)) (p : Nat),
      progressValues (gitDetectLoop cf p l).events = [] := by
  intro l
  induction l with
  | nil => intro p; rfl
  | cons seg rest ih =>
    intro p
    simp only [gitDetectLoop]
    by_cases hc : cancelAt cf p
    · simp [hc]
    · cases hd : detectFileData seg with
      | none => simp [hc, hd]
      | some pr => simp [hc, hd, ih]

theorem pV_chunksLoop (cf : Option Nat) :
    ∀ (l : List (FileData × List String)) (p i : Nat),
      ∃ m, m ≤ l.length ∧
        progressValues (gitChunksLoop cf p i l).events = List.range' i m := by
  intro l
  induction l with
  | nil => intro p i; exact ⟨0, Nat.le_refl 0, rfl⟩
  | cons pr rest ih =>
    intro p i
    obtain ⟨fd, chunkText⟩ := pr
    simp only [gitChunksLoop]
    by_cases hc : cancelAt cf p
    · exact ⟨0, Nat.zero_le _, by simp [hc, progressValues]⟩
    · cases hr : (if fd.binaryFiles then some [] else readChunks chunkText) with
      | none =>
        refine ⟨1, by simp, ?_⟩
        simp [hc, hr, List.range']
      | some hs =>
        obtain ⟨m, hm, hpv⟩ := ih (p + 1) (i + 1)
        refine ⟨m + 1, by simpa using Nat.succ_le_succ hm, ?_⟩
        simp [hc, hr, List.range'_succ, hpv]

theorem pV_diffLoop (cf : Option Nat) :
    ∀ (l : List (List String)) (p : Nat),
      progressValues (diffLoop cf p l).events = [] := by
  intro l
  induction l with
  | nil => intro p; rfl
  | cons seg rest ih =>
    intro p
    simp only [diffLoop]
    by_cases hc : cancelAt cf p
    · simp [hc]
    · cases hd : readDiffHeaderAndChunks seg with
      | none => simp [hc, hd]
      | some fd => simp [hc, hd, ih]

theorem pV_readDiffPatch (cf : Option Nat) (p : Nat) (patch : String) :
    progressValues (readDiffPatch cf p patch).events = [] := by
  simp only [readDiffPatch]
  by_cases hs : (unifiedSegments (patchLines patch)).isEmpty
  · simp [hs]
  · cases hv : (diffLoop cf p (unifiedSegments (patchLines patch))).value with
    | none => simp [hs, hv, pV_diffLoop]
    | some fds => simp [hs, hv, progressValues_append, pV_diffLoop]

theorem detectLoop_some_length (cf : Option Nat) :
    ∀ (l : List (List String)) (p : Nat) (ps : List (FileData × List String)),
      (gitDetectLoop cf p l).value = some ps → ps.length = l.length := by
  intro l
  induction l with
  | nil =>
    intro p ps h
    simp only [gitDetectLoop] at h
    cases h
    rfl
  | cons seg rest ih =>
    intro p ps h
    simp only [gitDetectLoop] at h
    by_cases hc : cancelAt cf p
    · simp [hc] at h
    · cases hd : detectFileData seg with
      | none => simp [hc, hd] at h
      | some pr =>
        simp only [hc, hd, if_neg, Bool.false_eq_true, not_false_iff] at h
        cases hv : (gitDetectLoop cf (p + 1) rest).value with
        | none => simp [hv] at h
        | some ps2 =>
          simp [hv, Option.map] at h
          subst h
          simp [ih (p + 1) ps2 hv]

theorem pV_readGitPatch (cf : Option Nat) (p : Nat) (patch : String) :
    ∃ m, m ≤ (gitSegments (patchLines patch)).length ∧
      progressValues (readGitPatch cf p patch).events = List.range' 0 m := by
  simp only [readGitPatch]
  cases hv : (gitDetectLoop cf p (gitSegments (patchLines patch))).value with
  | none => exact ⟨0, Nat.zero_le _, by simp [pV_detectLoop]⟩
  | some patches =>
    by_cases he : patches.isEmpty
    · exact ⟨0, Nat.zero_le _, by simp [hv, he, pV_detectLoop]⟩
    · obtain ⟨m, hm, hpv⟩ :=
        pV_chunksLoop cf patches (gitDetectLoop cf p (gitSegments (patchLines patch))).polls 0
      have hlen := detectLoop_some_length cf (gitSegments (patchLines patch)) p patches hv
      refine ⟨m, hlen ▸ hm, ?_⟩
      cases hr : (gitChunksLoop cf
          (gitDetectLoop cf p (gitSegments (patchLines patch))).polls 0 patches).value with
      | none =>
        simp [hv, he, hr, progressValues_append, pV_detectLoop, hpv]
      | some fds =>
        simp [hv, he, hr, progressValues_append, pV_detectLoop, hpv]

theorem pV_readPatchWithPromise (cf : Option Nat) (patch : String) :
    ∃ m, m ≤ (gitSegments (patchLines patch)).length ∧
      progressValues (readPatchWithPromise cf patch).events = 0 :: List.range' 0 m := by
  obtain ⟨m, hm, hpv⟩ := pV_readGitPatch cf 0 patch
  refine ⟨m, hm, ?_⟩
  simp only [readPatchWithPromise]
  cases hv : (readGitPatch cf 0 patch).value with
  | some fds => simp [hpv]
  | none =>
    simp [progressValues_append, hpv,
      pV_readDiffPatch cf (readGitPatch cf 0 patch).polls patch]

/-! ## Helper lemmas: monotonicity of the progress value list -/

theorem nonDecreasing_cons_range' :
    ∀ (n s a : Nat), a ≤ s → nonDecreasing (a :: List.range' s n) = true := by
  intro n
  induction n with
  | zero => intro s a _; rfl
  | succ k ih =>
    intro s a h
    rw [List.range'_succ]
    have h1 : decide (a ≤ s) = true := decide_eq_true h
    have h2 := ih (s + 1) s (Nat.le_succ s)
    simp [nonDecreasing, h1, h2]

/-! ## Helper lemmas: scans over event traces -/

theorem reqScan_append (trig : PEvent → Bool) :
    ∀ (xs ys : List PEvent) (f : Bool),
      reqScan trig f (xs ++ ys) = (reqScan trig f xs).bind (fun g => reqScan trig g ys) := by
  intro xs
  induction xs with
  | nil => intro ys f; rfl
  | cons e es ih =>
    intro ys f
    simp only [List.cons_append, reqScan]
    by_cases ht : trig e
    · simp [ht, ih]
    · cases e with
      | rangeSet lo hi => simp [ht, ih]
      | progress v => simp [ht, ih]
      | polled c => simp [ht, ih]
      | resultAdded => simp [ht, ih]
      | segmentProcessed =>
        by_cases hf : f
        · simp [ht, hf, ih]
        · simp [ht, hf]

theorem reqProg_detectLoop (cf : Option Nat) :
    ∀ (l : List (List String)) (p : Nat) (f : Bool),
      reqScan isProgressEvent f (gitDetectLoop cf p l).events = some f := by
  intro l
  induction l with
  | nil => intro p f; rfl
  | cons seg rest ih =>
    intro p f
    simp only [gitDetectLoop]
    by_cases hc : cancelAt cf p
    · simp [hc, reqScan, isProgressEvent]
    · cases hd : detectFileData seg with
      | none => simp [hc, hd, reqScan, isProgressEvent]
      | some pr => simp [hc, hd, reqScan, isProgressEvent, ih]

theorem reqProg_chunksLoop (cf : Option Nat) :
    ∀ (l : List (FileData × List String)) (p i : Nat) (f : Bool),
      ∃ g, reqScan isProgressEvent f (gitChunksLoop cf p i l).events = some g := by
  intro l
  induction l with
  | nil => intro p i f; exact ⟨f, rfl⟩
  | cons pr rest ih =>
    intro p i f
    obtain ⟨fd, chunkText⟩ := pr
    simp only [gitChunksLoop]
    by_cases hc : cancelAt cf p
    · exact ⟨f, by simp [hc, reqScan, isProgressEvent]⟩
    · cases hr : (if fd.binaryFiles then some [] else readChunks chunkText) with
      | none => exact ⟨true, by simp [hc, hr, reqScan, isProgressEvent]⟩
      | some hs =>
        obtain ⟨g, hg⟩ := ih (p + 1) (i + 1) false
        exact ⟨g, by simp [hc, hr, reqScan, isProgressEvent, hg]⟩

theorem reqProg_readGitPatch (cf : Option Nat) (p : Nat) (patch : String) :
    ∃ g, reqScan isProgressEvent false (readGitPatch cf p patch).events = some g := by
  simp only [readGitPatch]
  cases hv : (gitDetectLoop cf p (gitSegments (patchLines patch))).value with
  | none => exact ⟨false, by simp [reqProg_detectLoop]⟩
  | some patches =>
    by_cases he : patches.isEmpty
    · exact ⟨false, by simp [hv, he, reqProg_detectLoop]⟩
    · obtain ⟨g, hg⟩ := reqProg_chunksLoop cf patches
        (gitDetectLoop cf p (gitSegments (patchLines patch))).polls 0 false
      cases hr : (gitChunksLoop cf
          (gitDetectLoop cf p (gitSegments (patchLines patch))).polls 0 patches).value with
      | none =>
        refine ⟨g, ?_⟩
        simp [hv, he, hr, reqScan_append, reqProg_detectLoop, reqScan, isProgressEvent, hg]
      | some fds =>
        refine ⟨g, ?_⟩
        simp [hv, he, hr, reqScan_append, reqProg_detectLoop, reqScan, isProgressEvent, hg]

theorem reqPoll_detectLoop (cf : Option Nat) :
    ∀ (l : List (List String)) (p : Nat) (f : Bool),
      ∃ g, reqScan isPollEvent f (gitDetectLoop cf p l).events = some g := by
  intro l
  induction l with
  | nil => intro p f; exact ⟨f, rfl⟩
  | cons seg rest ih =>
    intro p f
    simp only [gitDetectLoop]
    by_cases hc : cancelAt cf p
    · exact ⟨true, by simp [hc, reqScan, isPollEvent]⟩
    · cases hd : detectFileData seg with
      | none => exact ⟨true, by simp [hc, hd, reqScan, isPollEvent]⟩
      | some pr =>
        obtain ⟨g, hg⟩ := ih (p + 1) true
        exact ⟨g, by simp [hc, hd, reqScan, isPollEvent, hg]⟩

theorem reqPoll_chunksLoop (cf : Option Nat) :
    ∀ (l : List (FileData × List String)) (p i : Nat) (f : Bool),
      ∃ g, reqScan isPollEvent f (gitChunksLoop cf p i l).events = some g := by
  intro l
  induction l with
  | nil => intro p i f; exact ⟨f, rfl⟩
  | cons pr rest ih =>
    intro p i f
    obtain ⟨fd, chunkText⟩ := pr
    simp only [gitChunksLoop]
    by_cases hc : cancelAt cf p
    · exact ⟨true, by simp [hc, reqScan, isPollEvent]⟩
    · cases hr : (if fd.binaryFiles then some [] else readChunks chunkText) with
      | none => exact ⟨true, by simp [hc, hr, reqScan, isPollEvent]⟩
      | some hs =>
        obtain ⟨g, hg⟩ := ih (p + 1) (i + 1) false
        exact ⟨g, by simp [hc, hr, reqScan, isPollEvent, hg]⟩

theorem reqPoll_diffLoop (cf : Option Nat) :
    ∀ (l : List (List String)) (p : Nat) (f : Bool),
      ∃ g, reqScan isPollEvent f (diffLoop cf p l).events = some g := by
  intro l
  induction l with
  | nil => intro p f; exact ⟨f, rfl⟩
  | cons seg rest ih =>
    intro p f
    simp only [diffLoop]
    by_cases hc : cancelAt cf p
    · exact ⟨true, by simp [hc, reqScan, isPollEvent]⟩
    · cases hd : readDiffHeaderAndChunks seg with
      | none => exact ⟨true, by simp [hc, hd, reqScan, isPollEvent]⟩
      | some fd =>
        obtain ⟨g, hg⟩ := ih (p + 1) false
        exact ⟨g, by simp [hc, hd, reqScan, isPollEvent, hg]⟩

theorem reqPoll_readGitPatch (cf : Option Nat) (p : Nat) (patch : String) (f : Bool) :
    ∃ g, reqScan isPollEvent f (readGitPatch cf p patch).events = some g := by
  simp only [readGitPatch]
  cases hv : (gitDetectLoop cf p (gitSegments (patchLines patch))).value with
  | none => exact reqPoll_detectLoop cf _ p f
  | some patches =>
    by_cases he : patches.isEmpty
    · simp only [hv, he]
      exact reqPoll_detectLoop cf _ p f
    · obtain ⟨g1, hg1⟩ := reqPoll_detectLoop cf (gitSegments (patchLines patch)) p f
      obtain ⟨g2, hg2⟩ := reqPoll_chunksLoop cf patches
        (gitDetectLoop cf p (gitSegments (patchLines patch))).polls 0 g1
      cases hr : (gitChunksLoop cf
          (gitDetectLoop cf p (gitSegments (patchLines patch))).polls 0 patches).value with
      | none =>
        exact ⟨g2, by simp [hv, he, hr, reqScan_append, hg1, reqScan, isPollEvent, hg2]⟩
      | some fds =>
        exact ⟨g2, by simp [hv, he, hr, reqScan_append, hg1, reqScan, isPollEvent, hg2]⟩

theorem reqPoll_readDiffPatch (cf : Option Nat) (p : Nat) (patch : String) (f : Bool) :
    ∃ g, reqScan isPollEvent f (readDiffPatch cf p patch).events = some g := by
  simp only [readDiffPatch]
  by_cases hs : (unifiedSegments (patchLines patch)).isEmpty
  · exact ⟨f, by simp [hs, reqScan]⟩
  · obtain ⟨g, hg⟩ := reqPoll_diffLoop cf (unifiedSegments (patchLines patch)) p f
    cases hv : (diffLoop cf p (unifiedSegments (patchLines patch))).value with
    | none => exact ⟨g, by simp [hs, hv, hg]⟩
    | some fds =>
      exact ⟨g, by simp [hs, hv, reqScan_append, hg, reqScan, isPollEvent]⟩

theorem reqPoll_readPatchWithPromise (cf : Option Nat) (patch : String) :
    ∃ g, reqScan isPollEvent false (readPatchWithPromise cf patch).events = some g := by
  simp only [readPatchWithPromise]
  obtain ⟨g1, hg1⟩ := reqPoll_readGitPatch cf 0 patch false
  cases hv : (readGitPatch cf 0 patch).value with
  | some fds =>
    exact ⟨g1, by simp [reqScan, isPollEvent, hg1]⟩
  | none =>
    obtain ⟨g2, hg2⟩ := reqPoll_readDiffPatch cf (readGitPatch cf 0 patch).polls patch g1
    exact ⟨g2, by simp [reqScan, isPollEvent, reqScan_append, hg1, hg2]⟩

/-! ## Helper lemmas: cancellation -/

theorem cancelAt_mono (cf : Option Nat) (p q : Nat) (hpq : p ≤ q)
    (h : cancelAt cf p = true) : cancelAt cf q = true := by
  cases cf with
  | none => simp [cancelAt] at h
  | some n =>
    simp only [cancelAt, decide_eq_true_eq] at h ⊢
    omega

theorem npacScan_append :
    ∀ (xs ys : List PEvent) (saw : Bool),
      npacScan saw (xs ++ ys) = (npacScan saw xs).bind (fun s2 => npacScan s2 ys) := by
  intro xs
  induction xs with
  | nil => intro ys saw; rfl
  | cons e es ih =>
    intro ys saw
    cases e with
    | rangeSet lo hi => simp only [List.cons_append, npacScan, List.append_eq, ih]
    | progress v => simp only [List.cons_append, npacScan, List.append_eq, ih]
    | polled c => simp only [List.cons_append, npacScan, List.append_eq, ih]
    | resultAdded => simp only [List.cons_append, npacScan, List.append_eq, ih]
    | segmentProcessed =>
      by_cases hs : saw
      · simp [List.cons_append, npacScan, hs]
      · simp [List.cons_append, npacScan, hs, ih]

theorem npac_detectLoop (cf : Option Nat) :
    ∀ (l : List (List String)) (p : Nat),
      ∃ b, npacScan false (gitDetectLoop cf p l).events = some b
        ∧ (b = true → cancelAt cf (gitDetectLoop cf p l).polls = true)
        ∧ ((gitDetectLoop cf p l).value.isSome = true → b = false) := by
  intro l
  induction l with
  | nil => intro p; exact ⟨false, rfl, by simp, fun _ => rfl⟩
  | cons seg rest ih =>
    intro p
    simp only [gitDetectLoop]
    by_cases hc : cancelAt cf p
    · refine ⟨true, ?_, ?_, ?_⟩
      · simp [hc, npacScan]
      · intro _
        simp only [hc, if_true]
        exact cancelAt_mono cf p (p + 1) (Nat.le_succ p) hc
      · simp [hc]
    · cases hd : detectFileData seg with
      | none =>
        refine ⟨false, ?_, by simp, ?_⟩
        · simp [hc, hd, npacScan]
        · simp [hc, hd]
      | some pr =>
        obtain ⟨b, hb, hcan, hval⟩ := ih (p + 1)
        refine ⟨b, ?_, ?_, ?_⟩
        · simp [hc, hd, npacScan, hb]
        · intro ht
          simp only [hc, hd]
          simpa using hcan ht
        · intro hv
          simp only [hc, hd] at hv
          simp only [Bool.false_eq_true, if_neg, not_false_iff] at hv
          apply hval
          cases hvv : (gitDetectLoop cf (p + 1) rest).value with
          | none => simp [hvv] at hv ⊢
          | some ps => rfl

theorem npac_chunksLoop (cf : Option Nat) :
    ∀ (l : List (FileData × List String)) (p i : Nat),
      ∃ b, npacScan false (gitChunksLoop cf p i l).events = some b
        ∧ (b = true → cancelAt cf (gitChunksLoop cf p i l).polls = true)
        ∧ ((gitChunksLoop cf p i l).value.isSome = true → b = false) := by
  intro l
  induction l with
  | nil => intro p i; exact ⟨false, rfl, by simp, fun _ => rfl⟩
  | cons pr rest ih =>
    intro p i
    obtain ⟨fd, chunkText⟩ := pr
    simp only [gitChunksLoop]
    by_cases hc : cancelAt cf p
    · refine ⟨true, ?_, ?_, ?_⟩
      · simp [hc, npacScan]
      · intro _
        simp only [hc, if_true]
        exact cancelAt_mono cf p (p + 1) (Nat.le_succ p) hc
      · simp [hc]
    · cases hr : (if fd.binaryFiles then some [] else readChunks chunkText) with
      | none =>
        refine ⟨false, ?_, by simp, ?_⟩
        · simp [hc, hr, npacScan]
        · simp [hc, hr]
      | some hs =>
        obtain ⟨b, hb, hcan, hval⟩ := ih (p + 1) (i + 1)
        refine ⟨b, ?_, ?_, ?_⟩
        · simp [hc, hr, npacScan, hb]
        · intro ht
          simp only [hc, hr]
          simpa using hcan ht
        · intro hv
          simp only [hc, hr] at hv
          apply hval
          cases hvv : (gitChunksLoop cf (p + 1) (i + 1) rest).value with
          | none => simp [hvv] at hv ⊢
          | some fds => rfl

theorem npac_diffLoop (cf : Option Nat) :
    ∀ (l : List (List String)) (p : Nat),
      ∃ b, npacScan false (diffLoop cf p l).events = some b
        ∧ (b = true → cancelAt cf (diffLoop cf p l).polls = true)
        ∧ ((diffLoop cf p l).value.isSome = true → b = false) := by
  intro l
  induction l with
  | nil => intro p; exact ⟨false, rfl, by simp, fun _ => rfl⟩
  | cons seg rest ih =>
    intro p
    simp only [diffLoop]
    by_cases hc : cancelAt cf p
    · refine ⟨true, ?_, ?_, ?_⟩
      · simp [hc, npacScan]
      · intro _
        simp only [hc, if_true]
        exact cancelAt_mono cf p (p + 1) (Nat.le_succ p) hc
      · simp [hc]
    · cases hd : readDiffHeaderAndChunks seg with
      | none =>
        refine ⟨false, ?_, by simp, ?_⟩
        · simp [hc, hd, npacScan]
        · simp [hc, hd]
      | some fd =>
        obtain ⟨b, hb, hcan, hval⟩ := ih (p + 1)
        refine ⟨b, ?_, ?_, ?_⟩
        · simp [hc, hd, npacScan, hb]
        · intro ht
          simp only [hc, hd]
          simpa using hcan ht
        · intro hv
          simp only [hc, hd] at hv
          apply hval
          cases hvv : (diffLoop cf (p + 1) rest).value with
          | none => simp [hvv] at hv ⊢
          | some fds => rfl

theorem detectLoop_value_cancelled (cf : Option Nat) (l : List (List String)) (p : Nat)
    (hc : cancelAt cf p = true) :
    (gitDetectLoop cf p l).value = none ∨ l = [] := by
  cases l with
  | nil => exact Or.inr rfl
  | cons seg rest => exact Or.inl (by simp [gitDetectLoop, hc])

theorem readGitPatch_value_cancelled (cf : Option Nat) (p : Nat) (patch : String)
    (hc : cancelAt cf p = true) :
    (readGitPatch cf p patch).value = none := by
  simp only [readGitPatch]
  rcases detectLoop_value_cancelled cf (gitSegments (patchLines patch)) p hc with hv | hl
  · simp [hv]
  · simp [hl, gitDetectLoop]

theorem diffLoop_value_cancelled (cf : Option Nat) (l : List (List String)) (p : Nat)
    (hc : cancelAt cf p = true) :
    (diffLoop cf p l).value = none ∨ l = [] := by
  cases l with
  | nil => exact Or.inr rfl
  | cons seg rest => exact Or.inl (by simp [diffLoop, hc])

theorem readDiffPatch_value_cancelled (cf : Option Nat) (p : Nat) (patch : String)
    (hc : cancelAt cf p = true) :
    (readDiffPatch cf p patch).value = none := by
  simp only [readDiffPatch]
  by_cases hs : (unifiedSegments (patchLines patch)).isEmpty
  · simp [hs]
  · rcases diffLoop_value_cancelled cf (unifiedSegments (patchLines patch)) p hc with hv | hl
    · simp [hs, hv]
    · rw [hl] at hs
      simp at hs

theorem npac_diffLoop_cancelled (cf : Option Nat) (l : List (List String)) (p : Nat)
    (hc : cancelAt cf p = true) :
    npacScan true (diffLoop cf p l).events = some true := by
  cases l with
  | nil => rfl
  | cons seg rest => simp [diffLoop, hc, npacScan]

theorem npac_readDiffPatch_cancelled (cf : Option Nat) (p : Nat) (patch : String)
    (hc : cancelAt cf p = true) :
    npacScan true (readDiffPatch cf p patch).events = some true := by
  simp only [readDiffPatch]
  by_cases hs : (unifiedSegments (patchLines patch)).isEmpty
  · simp [hs, npacScan]
  · rcases diffLoop_value_cancelled cf (unifiedSegments (patchLines patch)) p hc with hv | hl
    · simp [hs, hv, npac_diffLoop_cancelled cf _ p hc]
    · rw [hl] at hs
      simp at hs

theorem npac_readGitPatch (cf : Option Nat) (p : Nat) (patch : String) :
    ∃ b, npacScan false (readGitPatch cf p patch).events = some b
      ∧ (b = true → cancelAt cf (readGitPatch cf p patch).polls = true)
      ∧ ((readGitPatch cf p patch).value.isSome = true → b = false) := by
  simp only [readGitPatch]
  obtain ⟨b1, hb1, hcan1, hval1⟩ := npac_detectLoop cf (gitSegments (patchLines patch)) p
  cases hv : (gitDetectLoop cf p (gitSegments (patchLines patch))).value with
  | none => exact ⟨b1, by simp [hb1], by simpa using hcan1, by simp⟩
  | some patches =>
    have hb1f : b1 = false := hval1 (by simp [hv])
    subst hb1f
    by_cases he : patches.isEmpty
    · exact ⟨false, by simp [hv, he, hb1], by simp, by simp⟩
    · obtain ⟨b2, hb2, hcan2, hval2⟩ := npac_chunksLoop cf patches
        (gitDetectLoop cf p (gitSegments (patchLines patch))).polls 0
      cases hr : (gitChunksLoop cf
          (gitDetectLoop cf p (gitSegments (patchLines patch))).polls 0 patches).value with
      | none =>
        refine ⟨b2, ?_, ?_, by simp [hv, he, hr]⟩
        · simp [hv, he, hr, npacScan_append, hb1, npacScan, hb2]
        · intro ht
          simp only [hv, he, hr, if_neg, Bool.false_eq_true, not_false_iff]
          simpa using hcan2 ht
      | some fds =>
        have hb2f : b2 = false := hval2 (by simp [hr])
        subst hb2f
        refine ⟨false, ?_, by simp, by simp⟩
        simp [hv, he, hr, npacScan_append, hb1, npacScan, hb2]

theorem npac_readDiffPatch (cf : Option Nat) (p : Nat) (patch : String) :
    ∃ b, npacScan false (readDiffPatch cf p patch).events = some b
      ∧ (b = true → cancelAt cf (readDiffPatch cf p patch).polls = true)
      ∧ ((readDiffPatch cf p patch).value.isSome = true → b = false) := by
  simp only [readDiffPatch]
  by_cases hs : (unifiedSegments (patchLines patch)).isEmpty
  · exact ⟨false, by simp [hs, npacScan], by simp, by simp⟩
  · obtain ⟨b, hb, hcan, hval⟩ := npac_diffLoop cf (unifiedSegments (patchLines patch)) p
    cases hv : (diffLoop cf p (unifiedSegments (patchLines patch))).value with
    | none => exact ⟨b, by simp [hs, hv, hb], by simpa [hs, hv] using hcan, by simp [hs, hv]⟩
    | some fds =>
      have hbf : b = false := hval (by simp [hv])
      subst hbf
      refine ⟨false, ?_, by simp, by simp⟩
      simp [hs, hv, npacScan_append, hb, npacScan]

theorem npac_readPatchWithPromise (cf : Option Nat) (patch : String) :
    ∃ b, npacScan false (readPatchWithPromise cf patch).events = some b := by
  simp only [readPatchWithPromise]
  obtain ⟨b1, hb1, hcan1, hval1⟩ := npac_readGitPatch cf 0 patch
  cases hv : (readGitPatch cf 0 patch).value with
  | some fds => exact ⟨b1, by simp [npacScan, hb1]⟩
  | none =>
    cases hb1c : b1 with
    | false =>
      obtain ⟨b2, hb2, _, _⟩ := npac_readDiffPatch cf (readGitPatch cf 0 patch).polls patch
      refine ⟨b2, ?_⟩
      rw [hb1c] at hb1
      simp [npacScan, npacScan_append, hb1, hb2]
    | true =>
      refine ⟨true, ?_⟩
      rw [hb1c] at hb1
      have hcc := hcan1 hb1c
      simp [npacScan, npacScan_append, hb1,
        npac_readDiffPatch_cancelled cf (readGitPatch cf 0 patch).polls patch hcc]

theorem mem_polledTrue_detectLoop (cf : Option Nat) :
    ∀ (l : List (List String)) (p : Nat),
      PEvent.polled true ∈ (gitDetectLoop cf p l).events →
        (gitDetectLoop cf p l).value = none
        ∧ cancelAt cf (gitDetectLoop cf p l).polls = true := by
  intro l
  induction l with
  | nil => intro p h; simp [gitDetectLoop] at h
  | cons seg rest ih =>
    intro p h
    simp only [gitDetectLoop] at h ⊢
    by_cases hc : cancelAt cf p
    · exact ⟨by simp [hc], by simp [hc, cancelAt_mono cf p (p + 1) (Nat.le_succ p) hc]⟩
    · cases hd : detectFileData seg with
      | none => simp [hc, hd] at h
      | some pr =>
        simp only [hc, hd, if_neg, Bool.false_eq_true, not_false_iff, List.mem_cons] at h
        rcases h with h | h
        · exact absurd h.symm (by simp)
        · obtain ⟨hvn, hcn⟩ := ih (p + 1) h
          exact ⟨by simp [hc, hd, hvn], by simp [hc, hd, hcn]⟩

theorem mem_polledTrue_chunksLoop (cf : Option Nat) :
    ∀ (l : List (FileData × List String)) (p i : Nat),
      PEvent.polled true ∈ (gitChunksLoop cf p i l).events →
        (gitChunksLoop cf p i l).value = none
        ∧ cancelAt cf (gitChunksLoop cf p i l).polls = true := by
  intro l
  induction l with
  | nil => intro p i h; simp [gitChunksLoop] at h
  | cons pr rest ih =>
    intro p i h
    obtain ⟨fd, chunkText⟩ := pr
    simp only [gitChunksLoop] at h ⊢
    by_cases hc : cancelAt cf p
    · exact ⟨by simp [hc], by simp [hc, cancelAt_mono cf p (p + 1) (Nat.le_succ p) hc]⟩
    · cases hr : (if fd.binaryFiles then some [] else readChunks chunkText) with
      | none => simp [hc, hr] at h
      | some hs =>
        simp only [hc, hr, if_neg, Bool.false_eq_true, not_false_iff, List.mem_cons] at h
        rcases h with h | h | h | h
        · exact absurd h.symm (by simp)
        · exact absurd h.symm (by simp)
        · exact absurd h.symm (by simp)
        · obtain ⟨hvn, hcn⟩ := ih (p + 1) (i + 1) h
          exact ⟨by simp [hc, hr, hvn], by simp [hc, hr, hcn]⟩

theorem mem_polledTrue_diffLoop (cf : Option Nat) :
    ∀ (l : List (List String)) (p : Nat),
      PEvent.polled true ∈ (diffLoop cf p l).events →
        (diffLoop cf p l).value = none
        ∧ cancelAt cf (diffLoop cf p l).polls = true := by
  intro l
  induction l with
  | nil => intro p h; simp [diffLoop] at h
  | cons seg rest ih =>
    intro p h
    simp only [diffLoop] at h ⊢
    by_cases hc : cancelAt cf p
    · exact ⟨by simp [hc], by simp [hc, cancelAt_mono cf p (p + 1) (Nat.le_succ p) hc]⟩
    · cases hd : readDiffHeaderAndChunks seg with
      | none => simp [hc, hd] at h
      | some fd =>
        simp only [hc, hd, if_neg, Bool.false_eq_true, not_false_iff, List.mem_cons] at h
        rcases h with h | h | h
        · exact absurd h.symm (by simp)
        · exact absurd h.symm (by simp)
        · obtain ⟨hvn, hcn⟩ := ih (p + 1) h
          exact ⟨by simp [hc, hd, hvn], by simp [hc, hd, hcn]⟩

theorem mem_polledTrue_readGitPatch (cf : Option Nat) (p : Nat) (patch : String)
    (h : PEvent.polled true ∈ (readGitPatch cf p patch).events) :
    (readGitPatch cf p patch).value = none
    ∧ cancelAt cf (readGitPatch cf p patch).polls = true := by
  simp only [readGitPatch] at h ⊢
  cases hv : (gitDetectLoop cf p (gitSegments (patchLines patch))).value with
  | none =>
    rw [hv] at h
    obtain ⟨hvn, hcn⟩ := mem_polledTrue_detectLoop cf (gitSegments (patchLines patch)) p h
    exact ⟨rfl, hcn⟩
  | some patches =>
    by_cases he : patches.isEmpty
    · rw [hv] at h
      simp only [he, if_true] at h
      obtain ⟨hvn, _⟩ := mem_polledTrue_detectLoop cf (gitSegments (patchLines patch)) p h
      rw [hv] at hvn
      cases hvn
    · rw [hv] at h
      simp only [he, Bool.false_eq_true, if_neg, not_false_iff] at h
      cases hr : (gitChunksLoop cf
          (gitDetectLoop cf p (gitSegments (patchLines patch))).polls 0 patches).value with
      | none =>
        rw [hr] at h
        simp only [List.mem_append, List.mem_cons] at h
        rcases h with h | h | h
        · obtain ⟨hvn, _⟩ := mem_polledTrue_detectLoop cf (gitSegments (patchLines patch)) p h
          rw [hv] at hvn
          cases hvn
        · exact absurd h.symm (by simp)
        · obtain ⟨_, hcn⟩ := mem_polledTrue_chunksLoop cf patches
            (gitDetectLoop cf p (gitSegments (patchLines patch))).polls 0 h
          simp [hv, he, hr, hcn]
      | some fds =>
        rw [hr] at h
        simp only [List.mem_append, List.mem_cons] at h
        rcases h with h | h | h
        · obtain ⟨hvn, _⟩ := mem_polledTrue_detectLoop cf (gitSegments (patchLines patch)) p h
          rw [hv] at hvn
          cases hvn
        · exact absurd h.symm (by simp)
        · rcases h with h | h
          · obtain ⟨hvn, _⟩ := mem_polledTrue_chunksLoop cf patches
              (gitDetectLoop cf p (gitSegments (patchLines patch))).polls 0 h
            rw [hr] at hvn
            cases hvn
          · simp at h

theorem mem_polledTrue_readDiffPatch (cf : Option Nat) (p : Nat) (patch : String)
    (h : PEvent.polled true ∈ (readDiffPatch cf p patch).events) :
    (readDiffPatch cf p patch).value = none := by
  simp only [readDiffPatch] at h ⊢
  by_cases hs : (unifiedSegments (patchLines patch)).isEmpty
  · simp [hs] at h
  · cases hv : (diffLoop cf p (unifiedSegments (patchLines patch))).value with
    | none => simp [hs, hv]
    | some fds =>
      simp only [hs, hv, Bool.false_eq_true, if_neg, not_false_iff, List.mem_append,
        List.mem_cons, List.not_mem_nil, or_false] at h
      rcases h with h | h
      · obtain ⟨hvn, _⟩ := mem_polledTrue_diffLoop cf (unifiedSegments (patchLines patch)) p h
        rw [hv] at hvn
        cases hvn
      · cases h

theorem mem_polledTrue_readPatchWithPromise (cf : Option Nat) (patch : String)
    (h : PEvent.polled true ∈ (readPatchWithPromise cf patch).events) :
    (readPatchWithPromise cf patch).value = none := by
  simp only [readPatchWithPromise] at h ⊢
  cases hv : (readGitPatch cf 0 patch).value with
  | some fds =>
    simp only [hv, List.mem_cons] at h
    rcases h with h | h | h
    · cases h
    · cases h
    · obtain ⟨hvn, _⟩ := mem_polledTrue_readGitPatch cf 0 patch h
      rw [hv] at hvn
      cases hvn
  | none =>
    simp only [hv, List.mem_cons, List.mem_append] at h
    rcases h with h | h | h | h
    · cases h
    · cases h
    · obtain ⟨_, hcn⟩ := mem_polledTrue_readGitPatch cf 0 patch h
      simp [readDiffPatch_value_cancelled cf (readGitPatch cf 0 patch).polls patch hcn]
    · simp [mem_polledTrue_readDiffPatch cf (readGitPatch cf 0 patch).polls patch h]

theorem cancelAt_some_zero (p : Nat) : cancelAt (some 0) p = true := by
  simp [cancelAt]

theorem pV_readGitPatch_cancelled (cf : Option Nat) (p : Nat) (patch : String)
    (hc : cancelAt cf p = true) :
    progressValues (readGitPatch cf p patch).events = [] := by
  simp only [readGitPatch]
  rcases detectLoop_value_cancelled cf (gitSegments (patchLines patch)) p hc with hv | hl
  · simp [hv, pV_detectLoop]
  · simp [hl, gitDetectLoop]

/-! ## Helper lemmas: successful attempts parse every segment, in order -/

theorem detectLoop_some_forall (cf : Option Nat) :
    ∀ (l : List (List String)) (p : Nat) (ps : List (FileData × List String)),
      (gitDetectLoop cf p l).value = some ps →
        ∀ seg ∈ l, ∃ pr ∈ ps, detectFileData seg = some pr := by
  intro l
  induction l with
  | nil => intro p ps _ seg hseg; cases hseg
  | cons seg0 rest ih =>
    intro p ps h seg hseg
    simp only [gitDetectLoop] at h
    by_cases hc : cancelAt cf p
    · simp [hc] at h
    · cases hd : detectFileData seg0 with
      | none => simp [hc, hd] at h
      | some pr0 =>
        simp only [hc, hd, Bool.false_eq_true, if_neg, not_false_iff] at h
        cases hv : (gitDetectLoop cf (p + 1) rest).value with
        | none => simp [hv] at h
        | some ps2 =>
          simp only [hv, Option.map_some] at h
          cases h
          rcases List.mem_cons.mp hseg with hs | hs
          · exact ⟨pr0, List.mem_cons_self pr0 ps2, hs ▸ hd⟩
          · obtain ⟨pr, hmem, hpr⟩ := ih (p + 1) ps2 hv seg hs
            exact ⟨pr, List.mem_cons_of_mem pr0 hmem, hpr⟩

theorem chunksLoop_some_forall (cf : Option Nat) :
    ∀ (l : List (FileData × List String)) (p i : Nat) (fds : List FileData),
      (gitChunksLoop cf p i l).value = some fds →
        ∀ pr ∈ l, (if pr.1.binaryFiles then some [] else readChunks pr.2).isSome = true := by
  intro l
  induction l with
  | nil => intro p i fds _ pr hpr; cases hpr
  | cons pr0 rest ih =>
    intro p i fds h pr hpr
    obtain ⟨fd0, chunkText0⟩ := pr0
    simp only [gitChunksLoop] at h
    by_cases hc : cancelAt cf p
    · simp [hc] at h
    · cases hr : (if fd0.binaryFiles then some [] else readChunks chunkText0) with
      | none => simp [hc, hr] at h
      | some hs0 =>
        simp only [hc, hr, Bool.false_eq_true, if_neg, not_false_iff] at h
        cases hv : (gitChunksLoop cf (p + 1) (i + 1) rest).value with
        | none => simp [hv] at h
        | some fds2 =>
          rcases List.mem_cons.mp hpr with hp | hp
          · subst hp
            simp [hr]
          · exact ih (p + 1) (i + 1) fds2 hv pr hp

theorem diffLoop_some_eq (cf : Option Nat) :
    ∀ (l : List (List String)) (p : Nat) (fds : List FileData),
      (diffLoop cf p l).value = some fds →
        fds = l.filterMap readDiffHeaderAndChunks := by
  intro l
  induction l with
  | nil =>
    intro p fds h
    simp only [diffLoop] at h
    cases h
    rfl
  | cons seg rest ih =>
    intro p fds h
    simp only [diffLoop] at h
    by_cases hc : cancelAt cf p
    · simp [hc] at h
    · cases hd : readDiffHeaderAndChunks seg with
      | none => simp [hc, hd] at h
      | some fd =>
        simp only [hc, hd, Bool.false_eq_true, if_neg, not_false_iff] at h
        cases hv : (diffLoop cf (p + 1) rest).value with
        | none => simp [hv] at h
        | some fds2 =>
          simp only [hv, Option.map_some] at h
          cases h
          simp [List.filterMap_cons, hd, ih (p + 1) fds2 hv]

theorem diffLoop_some_forall (cf : Option Nat) :
    ∀ (l : List (List String)) (p : Nat) (fds : List FileData),
      (diffLoop cf p l).value = some fds →
        ∀ seg ∈ l, (readDiffHeaderAndChunks seg).isSome = true := by
  intro l
  induction l with
  | nil => intro p fds _ seg hseg; cases hseg
  | cons seg0 rest ih =>
    intro p fds h seg hseg
    simp only [diffLoop] at h
    by_cases hc : cancelAt cf p
    · simp [hc] at h
    · cases hd : readDiffHeaderAndChunks seg0 with
      | none => simp [hc, hd] at h
      | some fd =>
        simp only [hc, hd, Bool.false_eq_true, if_neg, not_false_iff] at h
        cases hv : (diffLoop cf (p + 1) rest).value with
        | none => simp [hv] at h
        | some fds2 =>
          rcases List.mem_cons.mp hseg with hs | hs
          · subst hs
            simp [hd]
          · exact ih (p + 1) fds2 hv seg hs

theorem readGitPatch_gitSegments_nil (cf : Option Nat) (p : Nat) (patch : String)
    (h : gitSegments (patchLines patch) = []) :
    (readGitPatch cf p patch).value = none ∧ (readGitPatch cf p patch).polls = p := by
  simp [readGitPatch, h, gitDetectLoop]

theorem readGitPatch_some_allParse (cf : Option Nat) (p : Nat) (patch : String)
    (fds : List FileData) (h : (readGitPatch cf p patch).value = some fds) :
    ∀ seg ∈ gitSegments (patchLines patch), (gitSegmentParse seg).isSome = true := by
  intro seg hseg
  simp only [readGitPatch] at h
  cases hv : (gitDetectLoop cf p (gitSegments (patchLines patch))).value with
  | none => rw [hv] at h; cases h
  | some patches =>
    rw [hv] at h
    by_cases he : patches.isEmpty
    · simp [he] at h
    · simp only [he, Bool.false_eq_true, if_neg, not_false_iff] at h
      cases hr : (gitChunksLoop cf
          (gitDetectLoop cf p (gitSegments (patchLines patch))).polls 0 patches).value with
      | none => rw [hr] at h; cases h
      | some fds2 =>
        obtain ⟨pr, hmem, hpr⟩ :=
          detectLoop_some_forall cf (gitSegments (patchLines patch)) p patches hv seg hseg
        have hstep := chunksLoop_some_forall cf patches
          (gitDetectLoop cf p (gitSegments (patchLines patch))).polls 0 fds2 hr pr hmem
        obtain ⟨fd, chunkText⟩ := pr
        simp only [gitSegmentParse, hpr]
        by_cases hb : fd.binaryFiles
        · simp [hb]
        · simp only [hb, Bool.false_eq_true, if_neg, not_false_iff] at hstep ⊢
          cases hchunks : readChunks chunkText with
          | none => rw [hchunks] at hstep; cases hstep
          | some hs => simp

/-! ## Helper lemmas: the hunk line-count invariant -/

theorem buildHunk_ok (hd : HunkHeader) (body : List String) (h : Hunk)
    (hb : buildHunk hd body = some h) : hunkOk h = true := by
  simp only [buildHunk] at hb
  by_cases hok : hunkOk ⟨hd.a, hd.b, hd.c, hd.d, classifyLines body⟩
  · rw [if_pos hok] at hb
    cases hb
    exact hok
  · rw [if_neg hok] at hb
    cases hb

theorem splitHunksGo_ok :
    ∀ (ls : List String) (hd : HunkHeader) (body : List String) (hs : List Hunk),
      splitHunksGo hd body ls = some hs → ∀ h ∈ hs, hunkOk h = true := by
  intro ls
  induction ls with
  | nil =>
    intro hd body hs hsp h hmem
    simp only [splitHunksGo] at hsp
    cases hb : buildHunk hd body.reverse with
    | none => rw [hb] at hsp; cases hsp
    | some h0 =>
      rw [hb] at hsp
      cases hsp
      rcases List.mem_singleton.mp hmem with rfl
      exact buildHunk_ok hd body.reverse h hb
  | cons l ls2 ih =>
    intro hd body hs hsp h hmem
    simp only [splitHunksGo] at hsp
    by_cases hat : strStartsWith l "@@ "
    · rw [if_pos hat] at hsp
      cases hph : parseHunkHeader l with
      | none => rw [hph] at hsp; cases hsp
      | some hd2 =>
        cases hb : buildHunk hd body.reverse with
        | none => rw [hph, hb] at hsp; cases hsp
        | some h0 =>
          rw [hph, hb] at hsp
          cases hrec : splitHunksGo hd2 [] ls2 with
          | none => simp only [hrec] at hsp; cases hsp
          | some hs2 =>
            simp only [hrec, Option.some.injEq] at hsp
            subst hsp
            rcases List.mem_cons.mp hmem with rfl | hm
            · exact buildHunk_ok hd body.reverse h hb
            · exact ih hd2 [] hs2 hrec h hm
    · rw [if_neg hat] at hsp
      exact ih hd (l :: body) hs hsp h hmem

theorem readChunks_ok (ls : List String) (hs : List Hunk)
    (h : readChunks ls = some hs) : ∀ hk ∈ hs, hunkOk hk = true := by
  cases ls with
  | nil =>
    simp only [readChunks] at h
    cases h
    intro hk hmem
    cases hmem
  | cons l ls2 =>
    simp only [readChunks] at h
    by_cases hat : strStartsWith l "@@ "
    · rw [if_pos hat] at h
      cases hph : parseHunkHeader l with
      | none => rw [hph] at h; cases h
      | some hd => exact splitHunksGo_ok ls2 hd [] hs (by rw [hph] at h; exact h)
    · rw [if_neg hat] at h
      cases h

theorem readDiffHeaderAndChunks_ok (seg : List String) (fd : FileData)
    (h : readDiffHeaderAndChunks seg = some fd) : ∀ hk ∈ fd.hunks, hunkOk hk = true := by
  match seg with
  | [] => cases h
  | [l1] => cases h
  | l1 :: l2 :: rest =>
    simp only [readDiffHeaderAndChunks] at h
    cases hf1 : parseFileLine "--- " l1 with
    | none => rw [hf1] at h; cases h
    | some src =>
      cases hf2 : parseFileLine "+++ " l2 with
      | none => rw [hf1, hf2] at h; cases h
      | some dst =>
        rw [hf1, hf2] at h
        cases hch : readChunks rest with
        | none => rw [hch] at h; cases h
        | some hs =>
          rw [hch] at h
          cases h
          exact readChunks_ok rest hs hch

theorem chunksLoop_some_hunkOk (cf : Option Nat) :
    ∀ (l : List (FileData × List String)) (p i : Nat) (fds : List FileData),
      (gitChunksLoop cf p i l).value = some fds →
        ∀ fd ∈ fds, ∀ hk ∈ fd.hunks, hunkOk hk = true := by
  intro l
  induction l with
  | nil =>
    intro p i fds h fd hfd
    simp only [gitChunksLoop] at h
    cases h
    cases hfd
  | cons pr0 rest ih =>
    intro p i fds h fd hfd
    obtain ⟨fd0, chunkText0⟩ := pr0
    simp only [gitChunksLoop] at h
    by_cases hc : cancelAt cf p
    · simp [hc] at h
    · cases hr : (if fd0.binaryFiles then some [] else readChunks chunkText0) with
      | none => simp [hc, hr] at h
      | some hs0 =>
        simp only [hc, hr, Bool.false_eq_true, if_neg, not_false_iff] at h
        cases hv : (gitChunksLoop cf (p + 1) (i + 1) rest).value with
        | none => simp [hv] at h
        | some fds2 =>
          simp only [hv, Option.map_some] at h
          cases h
          rcases List.mem_cons.mp hfd with rfl | hm
          · intro hk hmem
            by_cases hb : fd0.binaryFiles
            · rw [if_pos hb] at hr
              cases hr
              cases hmem
            · rw [if_neg hb] at hr
              exact readChunks_ok chunkText0 hs0 hr hk hmem
          · exact ih (p + 1) (i + 1) fds2 hv fd hm

theorem diffLoop_some_hunkOk (cf : Option Nat) (l : List (List String)) (p : Nat)
    (fds : List FileData) (h : (diffLoop cf p l).value = some fds) :
    ∀ fd ∈ fds, ∀ hk ∈ fd.hunks, hunkOk hk = true := by
  intro fd hfd
  rw [diffLoop_some_eq cf l p fds h] at hfd
  obtain ⟨seg, _, hseg⟩ := List.mem_filterMap.mp hfd
  exact readDiffHeaderAndChunks_ok seg fd hseg

theorem readGitPatch_some_hunkOk (cf : Option Nat) (p : Nat) (patch : String)
    (fds : List FileData) (h : (readGitPatch cf p patch).value = some fds) :
    ∀ fd ∈ fds, ∀ hk ∈ fd.hunks, hunkOk hk = true := by
  simp only [readGitPatch] at h
  cases hv : (gitDetectLoop cf p (gitSegments (patchLines patch))).value with
  | none => rw [hv] at h; cases h
  | some patches =>
    rw [hv] at h
    by_cases he : patches.isEmpty
    · simp [he] at h
    · simp only [he, Bool.false_eq_true, if_neg, not_false_iff] at h
      cases hr : (gitChunksLoop cf
          (gitDetectLoop cf p (gitSegments (patchLines patch))).polls 0 patches).value with
      | none => rw [hr] at h; cases h
      | some fds2 =>
        rw [hr] at h
        cases h
        exact chunksLoop_some_hunkOk cf patches
          (gitDetectLoop cf p (gitSegments (patchLines patch))).polls 0 fds hr

theorem readDiffPatch_some_hunkOk (cf : Option Nat) (p : Nat) (patch : String)
    (fds : List FileData) (h : (readDiffPatch cf p patch).value = some fds) :
    ∀ fd ∈ fds, ∀ hk ∈ fd.hunks, hunkOk hk = true := by
  simp only [readDiffPatch] at h
  by_cases hs : (unifiedSegments (patchLines patch)).isEmpty
  · simp [hs] at h
  · cases hv : (diffLoop cf p (unifiedSegments (patchLines patch))).value with
    | none => simp [hs, hv] at h
    | some fds2 =>
      simp only [hs, hv, Bool.false_eq_true, if_neg, not_false_iff] at h
      cases h
      exact diffLoop_some_hunkOk cf (unifiedSegments (patchLines patch)) p fds hv

theorem readPatchWithPromise_some_hunkOk (cf : Option Nat) (patch : String)
    (fds : List FileData) (h : (readPatchWithPromise cf patch).value = some fds) :
    ∀ fd ∈ fds, ∀ hk ∈ fd.hunks, hunkOk hk = true := by
  simp only [readPatchWithPromise] at h
  cases hv : (readGitPatch cf 0 patch).value with
  | some fds2 =>
    rw [hv] at h
    cases h
    exact readGitPatch_some_hunkOk cf 0 patch fds hv
  | none =>
    rw [hv] at h
    exact readDiffPatch_some_hunkOk cf (readGitPatch cf 0 patch).polls patch fds h

theorem hunkOk_eq (hk : Hunk) (h : hunkOk hk = true) :
    countRole LineRole.context hk.lines + countRole LineRole.removed hk.lines = hk.beforeCount
    ∧ countRole LineRole.context hk.lines + countRole LineRole.added hk.lines = hk.afterCount := by
  simp only [hunkOk, Bool.and_eq_true, beq_iff_eq] at h
  exact h

end DiffEditor

namespace DiffEditor

/-! ## Claim theorems -/

/-- Claim C1: for every patch text the parser first attempts the git-style
parse, and it runs the unified-diff parse only when the git attempt produced no
result; when the git attempt produces a result, the whole run is exactly the
git attempt (the unified-diff parse is never run). -/
theorem claim1_git_first_unified_fallback (cf : Option Nat) (patch : String) :
    ((readGitPatch cf 0 patch).value.isSome = true →
      readPatchWithPromise cf patch =
        ⟨PEvent.rangeSet 0 1 :: PEvent.progress 0 :: (readGitPatch cf 0 patch).events,
          (readGitPatch cf 0 patch).polls, (readGitPatch cf 0 patch).value⟩)
    ∧ ((readGitPatch cf 0 patch).value.isSome = false →
      readPatchWithPromise cf patch =
        ⟨PEvent.rangeSet 0 1 :: PEvent.progress 0 ::
            ((readGitPatch cf 0 patch).events
              ++ (readDiffPatch cf (readGitPatch cf 0 patch).polls patch).events),
          (readDiffPatch cf (readGitPatch cf 0 patch).polls patch).polls,
          (readDiffPatch cf (readGitPatch cf 0 patch).polls patch).value⟩) := by
  constructor
  · intro h
    simp only [readPatchWithPromise]
    cases hv : (readGitPatch cf 0 patch).value with
    | none => rw [hv] at h; cases h
    | some fds => simp [hv]
  · intro h
    simp only [readPatchWithPromise]
    cases hv : (readGitPatch cf 0 patch).value with
    | none => simp [hv]
    | some fds => simp [hv] at h

/-- Witness for claim C1 at a concrete git patch: the git attempt produced a
result and the whole run equals the git attempt, so the unified parse never
ran. -/
theorem claim1_witness :
    readPatchWithPromise none exGitBinary =
      ⟨PEvent.rangeSet 0 1 :: PEvent.progress 0 :: (readGitPatch none 0 exGitBinary).events,
        (readGitPatch none 0 exGitBinary).polls, (readGitPatch none 0 exGitBinary).value⟩ :=
  (claim1_git_first_unified_fallback none exGitBinary).1 (by decide)

/-- Claim C2 counterexample: this patch's single git segment fails to parse
(its file data cannot be detected), yet the whole parse still returns a
result — the unified fallback returns the well-formed file, so a partial
collection of successfully parsed files is produced. -/
theorem claim2_counterexample :
    gitSegments (patchLines exMixed) =
      [["diff --git a/c b/c", "garbage", "--- a/good", "+++ b/good", "@@ -1,1 +1,1 @@", "-x", "+y"]]
    ∧ gitSegmentParse
        ["diff --git a/c b/c", "garbage", "--- a/good", "+++ b/good", "@@ -1,1 +1,1 @@", "-x", "+y"]
        = none
    ∧ DiffUtils.readPatch exMixed =
        some [⟨"a/good", "b/good", false,
          [⟨1, 1, 1, 1, [⟨LineRole.removed, "x"⟩, ⟨LineRole.added, "y"⟩]⟩]⟩] :=
  ⟨by decide, by decide, by decide⟩

/-- Claim C2 (amended): within one format attempt the failure policy is
all-or-nothing — a git segment that fails to parse makes the git attempt yield
no result, and, in a patch with no git header line, a unified segment that
fails to parse makes the whole parse yield no result.  When the git attempt
aborts, however, the unified fallback still runs on the same text and may
return the files it can parse. -/
theorem claim2_all_or_nothing_per_attempt (cf : Option Nat) (p : Nat) (patch : String) :
    ((∃ seg ∈ gitSegments (patchLines patch), gitSegmentParse seg = none) →
      (readGitPatch cf p patch).value = none)
    ∧ (gitSegments (patchLines patch) = [] →
      (∃ seg ∈ unifiedSegments (patchLines patch), readDiffHeaderAndChunks seg = none) →
      (readPatchWithPromise cf patch).value = none) := by
  constructor
  · rintro ⟨seg, hmem, hfail⟩
    cases hv : (readGitPatch cf p patch).value with
    | none => rfl
    | some fds =>
      have hall := readGitPatch_some_allParse cf p patch fds hv seg hmem
      rw [hfail] at hall
      cases hall
  · rintro hg ⟨seg, hmem, hfail⟩
    have hgv := (readGitPatch_gitSegments_nil cf 0 patch hg).1
    simp only [readPatchWithPromise, hgv]
    simp only [readDiffPatch]
    by_cases hs : (unifiedSegments (patchLines patch)).isEmpty
    · simp [hs]
    · cases hv : (diffLoop cf (readGitPatch cf 0 patch).polls
          (unifiedSegments (patchLines patch))).value with
      | none => simp [hs, hv]
      | some fds =>
        have hall := diffLoop_some_forall cf (unifiedSegments (patchLines patch))
          (readGitPatch cf 0 patch).polls fds hv seg hmem
        rw [hfail] at hall
        cases hall

/-- Witness for claim C2 at concrete patches: the failing git segment of
`exMixed` makes the git attempt itself yield no result, and the corrupted hunk
marker in the second file of `exCorruptHunk` (a patch with no git headers)
makes the whole parse yield no result. -/
theorem claim2_witness :
    (readGitPatch none 0 exMixed).value = none
    ∧ (readPatchWithPromise none exCorruptHunk).value = none :=
  ⟨(claim2_all_or_nothing_per_attempt none 0 exMixed).1
      ⟨["diff --git a/c b/c", "garbage", "--- a/good", "+++ b/good", "@@ -1,1 +1,1 @@", "-x", "+y"],
        by decide, by decide⟩,
    (claim2_all_or_nothing_per_attempt none 0 exCorruptHunk).2 (by decide)
      ⟨["--- a/g", "+++ b/g", "@@ broken"], by decide, by decide⟩⟩

/-- Claim C3: cancellation is polled before processing each file segment (every
processed segment is preceded by a poll since the last one), no segment is
processed after a poll observes cancellation, an observed cancellation makes
the parse yield no result, and a promise cancelled from the start yields no
result with only zero progress reported. -/
theorem claim3_cancellation (cf : Option Nat) (patch : String) :
    (reqScan isPollEvent false (readPatchWithPromise cf patch).events).isSome = true
    ∧ (npacScan false (readPatchWithPromise cf patch).events).isSome = true
    ∧ (PEvent.polled true ∈ (readPatchWithPromise cf patch).events →
        (readPatchWithPromise cf patch).value = none)
    ∧ (cf = some 0 →
        (readPatchWithPromise cf patch).value = none
        ∧ ∀ v ∈ progressValues (readPatchWithPromise cf patch).events, v = 0) := by
  refine ⟨?_, ?_, mem_polledTrue_readPatchWithPromise cf patch, ?_⟩
  · obtain ⟨g, hg⟩ := reqPoll_readPatchWithPromise cf patch
    simp [hg]
  · obtain ⟨b, hb⟩ := npac_readPatchWithPromise cf patch
    simp [hb]
  · rintro rfl
    have hgv := readGitPatch_value_cancelled (some 0) 0 patch (cancelAt_some_zero 0)
    have hdv := readDiffPatch_value_cancelled (some 0) (readGitPatch (some 0) 0 patch).polls
      patch (cancelAt_some_zero _)
    constructor
    · simp [readPatchWithPromise, hgv, hdv]
    · intro v hv
      simp only [readPatchWithPromise, hgv] at hv
      simp only [progressValues_cons_rangeSet, progressValues_cons_progress,
        progressValues_append,
        pV_readGitPatch_cancelled (some 0) 0 patch (cancelAt_some_zero 0),
        pV_readDiffPatch (some 0) (readGitPatch (some 0) 0 patch).polls patch,
        List.append_nil, List.mem_singleton] at hv
      exact hv

/-- Witness for claim C3: with a promise cancelled from the start, the parse of
the concrete unified example yields no result and reports only zero progress,
and the single observed-cancellation poll in its trace confirms the
no-result outcome. -/
theorem claim3_witness :
    ((readPatchWithPromise (some 0) exUnified).value = none
      ∧ ∀ v ∈ progressValues (readPatchWithPromise (some 0) exUnified).events, v = 0)
    ∧ (readPatchWithPromise (some 0) exUnified).value = none :=
  ⟨(claim3_cancellation (some 0) exUnified).2.2.2 rfl,
    (claim3_cancellation (some 0) exUnified).2.2.1 (by decide)⟩

/-- Claim C4 counterexample: the source reports the progress value before
processing each segment, so after the last processed segment of this git patch
no progress report follows; the unified path processes segments with no
per-segment progress reports at all. -/
theorem claim4_counterexample :
    reportAfterProcessed (readPatchWithPromise none exGitBinary).events = false
    ∧ reportAfterProcessed (readPatchWithPromise none exUnifiedTwo).events = false :=
  ⟨by decide, by decide⟩

/-- Claim C4 (amended): during one parse invocation the reported progress
values stay within [0, fileSegmentCount] and never decrease; during the git
attempt a progress report is issued before (not after) each processed file
segment; the unified path reports no per-segment progress. -/
theorem claim4_progress (cf : Option Nat) (p : Nat) (patch : String) :
    (∀ v ∈ progressValues (readPatchWithPromise cf patch).events, v ≤ fileSegmentCount patch)
    ∧ nonDecreasing (progressValues (readPatchWithPromise cf patch).events) = true
    ∧ (reqScan isProgressEvent false (readGitPatch cf p patch).events).isSome = true
    ∧ progressValues (readDiffPatch cf p patch).events = [] := by
  obtain ⟨m, hm, hpv⟩ := pV_readPatchWithPromise cf patch
  refine ⟨?_, ?_, ?_, pV_readDiffPatch cf p patch⟩
  · intro v hv
    rw [hpv] at hv
    rcases List.mem_cons.mp hv with rfl | hv2
    · exact Nat.zero_le _
    · have hb := List.mem_range'_1.mp hv2
      by_cases hg : (gitSegments (patchLines patch)).isEmpty
      · have h0 : (gitSegments (patchLines patch)).length = 0 := by
          simp [List.isEmpty_iff.mp hg]
        omega
      · simp only [fileSegmentCount, hg, Bool.false_eq_true, if_neg, not_false_iff]
        omega
  · rw [hpv]
    exact nonDecreasing_cons_range' m 0 0 (Nat.le_refl 0)
  · obtain ⟨g, hg⟩ := reqProg_readGitPatch cf p patch
    simp [hg]

/-- Witness for claim C4: the progress value 0 reported during the concrete
git-binary parse is within the file-segment-count bound. -/
theorem claim4_witness :
    0 ∈ progressValues (readPatchWithPromise none exGitBinary).events
    ∧ 0 ≤ fileSegmentCount exGitBinary :=
  ⟨by decide, (claim4_progress none 0 exGitBinary).1 0 (by decide)⟩

end DiffEditor

namespace DiffEditor

/-- Claim C5: for every Hunk of a successfully parsed result, the context plus
removed line count equals the declared before-length, and the context plus
added line count equals the declared after-length. -/
theorem claim5_hunk_invariant (patch : String) (fds : List FileData)
    (h : DiffUtils.readPatch patch = some fds) :
    ∀ fd ∈ fds, ∀ hk ∈ fd.hunks,
      countRole LineRole.context hk.lines + countRole LineRole.removed hk.lines = hk.beforeCount
      ∧ countRole LineRole.context hk.lines + countRole LineRole.added hk.lines = hk.afterCount := by
  intro fd hfd hk hmem
  exact hunkOk_eq hk (readPatchWithPromise_some_hunkOk none patch fds h fd hfd hk hmem)

/-- Witness for claim C5 at the concrete example hunk: 0 context + 1 removed
lines match the declared before-length 1, and 0 context + 2 added lines match
the declared after-length 2. -/
theorem claim5_witness :
    countRole LineRole.context exUnifiedHunk.lines + countRole LineRole.removed exUnifiedHunk.lines
      = exUnifiedHunk.beforeCount
    ∧ countRole LineRole.context exUnifiedHunk.lines + countRole LineRole.added exUnifiedHunk.lines
      = exUnifiedHunk.afterCount :=
  claim5_hunk_invariant exUnified [exUnifiedFileData] (by decide)
    exUnifiedFileData (by decide) exUnifiedHunk (by decide)

/-- Claim C6: for valid unified-diff text (a patch with no git header whose
parse succeeds), the FileData entries are exactly the per-segment parses of the
unified segments, which the segmenter produces in text order — so results
appear in the same order as their file headers in the patch text. -/
theorem claim6_order_preserved (patch : String) (fds : List FileData)
    (hg : gitSegments (patchLines patch) = [])
    (h : DiffUtils.readPatch patch = some fds) :
    fds = (unifiedSegments (patchLines patch)).filterMap readDiffHeaderAndChunks := by
  have h2 : (readPatchWithPromise none patch).value = some fds := h
  have hgv := (readGitPatch_gitSegments_nil none 0 patch hg).1
  simp only [readPatchWithPromise, hgv] at h2
  simp only [readDiffPatch] at h2
  by_cases hs : (unifiedSegments (patchLines patch)).isEmpty
  · simp [hs] at h2
  · cases hv : (diffLoop none (readGitPatch none 0 patch).polls
        (unifiedSegments (patchLines patch))).value with
    | none => simp [hs, hv] at h2
    | some fds2 =>
      simp only [hs, hv, Bool.false_eq_true, if_neg, not_false_iff,
        Option.some.injEq] at h2
      subst h2
      exact diffLoop_some_eq none (unifiedSegments (patchLines patch))
        (readGitPatch none 0 patch).polls fds2 hv

/-- Witness for claim C6 at a concrete two-file unified patch: the parsed list
equals the in-order per-segment parses. -/
theorem claim6_witness :
    exUnifiedTwoResult
      = (unifiedSegments (patchLines exUnifiedTwo)).filterMap readDiffHeaderAndChunks :=
  claim6_order_preserved exUnifiedTwo exUnifiedTwoResult (by decide) (by decide)

/-- Claim C7 counterexample: parsing the empty patch text yields no result —
the very outcome produced for an unparsable patch — rather than a successful
zero-file outcome distinguishable from it. -/
theorem claim7_counterexample :
    DiffUtils.readPatch "" = none ∧ DiffUtils.readPatch exCorruptHunk = none :=
  ⟨by decide, by decide⟩

/-- Claim C7 (amended): the empty patch segments to zero git and zero unified
segments (segmentation itself does not fail), but the whole parse of the empty
patch produces no result, which is the same outcome as for an unparsable patch
— the zero-file success is not distinguishable from the failure outcome. -/
theorem claim7_empty_patch_conflated :
    gitSegments (patchLines "") = []
    ∧ unifiedSegments (patchLines "") = []
    ∧ DiffUtils.readPatch "" = none
    ∧ DiffUtils.readPatch exCorruptHunk = none :=
  ⟨by decide, by decide, by decide, by decide⟩

/-- Claim C8: parsing the specification's example input yields exactly one
FileData with source "a/f.txt" and destination "b/f.txt" containing one Hunk
with before-count 1 and after-count 2 whose lines are, in order, removed
"old", added "new1", added "new2". -/
theorem claim8_example :
    DiffUtils.readPatch exUnified = some [exUnifiedFileData] := by
  decide

end DiffEditor

namespace Android

/-! ## Helper lemmas on version comparison -/

theorem versionGE_iff (v w : QVersionNumber) :
    versionGE v w = true
      ↔ (w.majorV < v.majorV ∨ (v.majorV = w.majorV ∧ w.minorV ≤ v.minorV)) := by
  simp [versionGE, Bool.or_eq_true, Bool.and_eq_true, decide_eq_true_eq]

theorem versionGE_trans (a b c : QVersionNumber)
    (h1 : versionGE b a = true) (h2 : versionGE c b = true) : versionGE c a = true := by
  rw [versionGE_iff] at h1 h2 ⊢
  omega

theorem ge6_imp_ge513 (v : QVersionNumber) (h : versionGE v ⟨6, 0⟩ = true) :
    versionGE v ⟨5, 13⟩ = true := by
  rw [versionGE_iff] at h ⊢
  simp at h ⊢
  omega

theorem defaultMinimumSDK_ge16 (x : Option QVersionNumber) : 16 ≤ defaultMinimumSDK x := by
  unfold defaultMinimumSDK
  split
  · omega
  · split
    · omega
    · omega

/-- Claim C9: `adbSelector` returns the single-element list `["-d"]` exactly
when the serial number starts with "????", and otherwise returns exactly the
two-element list `["-s", serialNumber]`. -/
theorem claim9_adbSelector (s : String) :
    (adbSelector s = ["-d"] ↔ DiffEditor.strStartsWith s "????" = true)
    ∧ (DiffEditor.strStartsWith s "????" = false → adbSelector s = ["-s", s]) := by
  constructor
  · constructor
    · intro h
      by_cases hs : DiffEditor.strStartsWith s "????"
      · exact hs
      · simp only [adbSelector, hs, Bool.false_eq_true, if_neg, not_false_iff] at h
        have hlen := congrArg List.length h
        simp at hlen
    · intro h
      simp [adbSelector, h]
  · intro h
    simp [adbSelector, h]

/-- Witness for claim C9 at concrete serial numbers: a normal serial yields
`["-s", serial]` and a "????" serial yields `["-d"]`. -/
theorem claim9_witness :
    adbSelector "emulator-5554" = ["-s", "emulator-5554"]
    ∧ adbSelector "????123456" = ["-d"] :=
  ⟨(claim9_adbSelector "emulator-5554").2 (by decide),
    (claim9_adbSelector "????123456").1.mpr (by decide)⟩

/-- Claim C10: `defaultMinimumSDK` is total and monotone in the Qt version —
it returns 23 for every version at least 6.0, 21 for every version at least
5.13 but below 6.0, 16 otherwise, and 16 for the null version rather than
failing. -/
theorem claim10_defaultMinimumSDK :
    defaultMinimumSDK none = 16
    ∧ (∀ v : QVersionNumber, versionGE v ⟨6, 0⟩ = true → defaultMinimumSDK (some v) = 23)
    ∧ (∀ v : QVersionNumber, versionGE v ⟨6, 0⟩ = false → versionGE v ⟨5, 13⟩ = true →
        defaultMinimumSDK (some v) = 21)
    ∧ (∀ v : QVersionNumber, versionGE v ⟨5, 13⟩ = false → defaultMinimumSDK (some v) = 16)
    ∧ (∀ v w : QVersionNumber, versionGE w v = true →
        defaultMinimumSDK (some v) ≤ defaultMinimumSDK (some w)) := by
  refine ⟨rfl, ?_, ?_, ?_, ?_⟩
  · intro v h
    simp [defaultMinimumSDK, h]
  · intro v h6 h513
    simp [defaultMinimumSDK, h6, h513]
  · intro v h513
    have h6 : versionGE v ⟨6, 0⟩ = false := by
      by_cases h : versionGE v ⟨6, 0⟩ = true
      · rw [ge6_imp_ge513 v h] at h513
        cases h513
      · exact Bool.not_eq_true _ ▸ (by simpa using h)
    simp [defaultMinimumSDK, h6, h513]
  · intro v w hvw
    by_cases h6 : versionGE v ⟨6, 0⟩ = true
    · have hw6 : versionGE w ⟨6, 0⟩ = true := versionGE_trans ⟨6, 0⟩ v w h6 hvw
      simp [defaultMinimumSDK, h6, hw6]
    · by_cases h513 : versionGE v ⟨5, 13⟩ = true
      · have hw513 : versionGE w ⟨5, 13⟩ = true := versionGE_trans ⟨5, 13⟩ v w h513 hvw
        have hv6 : versionGE v ⟨6, 0⟩ = false := by simpa using h6
        simp only [defaultMinimumSDK, hv6, h513]
        by_cases hw6 : versionGE w ⟨6, 0⟩ = true
        · simp [hw6]
        · have hw6f : versionGE w ⟨6, 0⟩ = false := by simpa using hw6
          simp [hw6f, hw513]
      · have hv513 : versionGE v ⟨5, 13⟩ = false := by simpa using h513
        have hv6 : versionGE v ⟨6, 0⟩ = false := by
          by_cases h : versionGE v ⟨6, 0⟩ = true
          · rw [ge6_imp_ge513 v h] at hv513
            cases hv513
          · simpa using h
        have h16 : defaultMinimumSDK (some v) = 16 := by simp [defaultMinimumSDK, hv6, hv513]
        rw [h16]
        exact defaultMinimumSDK_ge16 (some w)

/-- Witness for claim C10 at concrete versions: 6.5 maps to 23, 5.15 to 21,
5.12 to 16, and monotonicity holds between 5.12 and 6.5. -/
theorem claim10_witness :
    defaultMinimumSDK none = 16
    ∧ defaultMinimumSDK (some ⟨6, 5⟩) = 23
    ∧ defaultMinimumSDK (some ⟨5, 15⟩) = 21
    ∧ defaultMinimumSDK (some ⟨5, 12⟩) = 16
    ∧ defaultMinimumSDK (some ⟨5, 12⟩) ≤ defaultMinimumSDK (some ⟨6, 5⟩) :=
  ⟨claim10_defaultMinimumSDK.1,
    claim10_defaultMinimumSDK.2.1 ⟨6, 5⟩ (by decide),
    claim10_defaultMinimumSDK.2.2.1 ⟨5, 15⟩ (by decide) (by decide),
    claim10_defaultMinimumSDK.2.2.2.1 ⟨5, 12⟩ (by decide),
    claim10_defaultMinimumSDK.2.2.2.2 ⟨5, 12⟩ ⟨6, 5⟩ (by decide)⟩

end Android
